import Mathlib

/-!
Verification of the slot-to-window analytics engine of the ekz-tariffs
integration (custom_components/ekz_tariffs).  Timestamps are modelled as
integers (minutes on a global timeline); prices are modelled as rationals.
Python float rounding `round(x, 6)` is modelled as exact decimal rounding
on the rationals.
-/

namespace EkzTariffs

/-- Timestamps: minutes on a global timeline (zoned datetimes compare and
subtract like integers once a timeline origin is fixed). -/
abbrev Time := Int

/-- Price values, CHF per kWh, modelled exactly as rationals. -/
abbrev Price := ℚ

/-- Model of the `norm` helper inside `fuse_slots` (calendar.py): Python
`round(x, 6)`, i.e. rounding to 6 decimal digits.  Tie behaviour (Python
uses round-half-to-even on binary floats) is immaterial to the claims; we
round half up on exact rationals. -/
def round6 (q : ℚ) : ℚ := ((⌊q * 1000000 + 1 / 2⌋ : ℤ) : ℚ) / 1000000

theorem round6_idem (q : ℚ) : round6 (round6 q) = round6 q := by
  unfold round6
  have h6 : ((1000000 : ℚ)) ≠ 0 := by norm_num
  have harg : ((⌊q * 1000000 + 1 / 2⌋ : ℤ) : ℚ) / 1000000 * 1000000 + 1 / 2
      = ((⌊q * 1000000 + 1 / 2⌋ : ℤ) : ℚ) + 1 / 2 := by
    field_simp
  rw [harg, Int.floor_int_add]
  norm_num

/-- TariffSlot (api.py): `start`, `end`, `price_chf_per_kwh`.  The field
`end` is renamed `stop` (Lean keyword) and `price_chf_per_kwh` is
shortened to `price`. -/
structure TariffSlot where
  start : Time
  stop : Time
  price : Price
deriving DecidableEq, Repr

/-- FusedEvent (calendar.py): a maximal run of adjacent same-price slots;
`price` is stored rounded to 6 decimals. -/
structure FusedEvent where
  start : Time
  stop : Time
  price : Price
deriving DecidableEq, Repr

/-- The loop body of `fuse_slots` (calendar.py lines 35-42): walk the
remaining slots keeping a running fused interval `cur`; a slot is merged
into `cur` exactly when its rounded price equals `cur.price` and its start
equals `cur.stop`, otherwise `cur` is emitted and a new running interval
starts from the slot. -/
def fuseLoop (cur : FusedEvent) : List TariffSlot → List FusedEvent
  | [] => [cur]
  | s :: rest =>
    if round6 s.price = cur.price ∧ s.start = cur.stop then
      fuseLoop ⟨cur.start, s.stop, cur.price⟩ rest
    else
      cur :: fuseLoop ⟨s.start, s.stop, round6 s.price⟩ rest

/-- `fuse_slots` (calendar.py lines 26-43): empty input gives empty
output; otherwise seed the running interval from the first slot (price
rounded to 6 decimals) and run the loop. -/
def fuseSlots : List TariffSlot → List FusedEvent
  | [] => []
  | s :: rest => fuseLoop ⟨s.start, s.stop, round6 s.price⟩ rest

/-- Modelled from the spec: `fuse_as_slots` (spec section 8) re-expresses
fused intervals as slots with the same start, end and price; it has no
counterpart under src/. -/
def fuse_as_slots (l : List FusedEvent) : List TariffSlot :=
  l.map (fun e => ⟨e.start, e.stop, e.price⟩)

/-- C1: For every non-empty slot list sorted ascending by start,
fuse_slots merges a slot into the running fused interval if and only if
its price rounded to 6 decimal digits equals the running interval price
and its start equals the running interval end exactly; two equal-priced
slots separated by a gap are emitted as two separate intervals, and the
empty list yields the empty output. -/
theorem fuse_merge_conditions (cur : FusedEvent) (s : TariffSlot)
    (rest : List TariffSlot) :
    fuseSlots [] = [] ∧
    (round6 s.price = cur.price ∧ s.start = cur.stop →
      fuseLoop cur (s :: rest) = fuseLoop ⟨cur.start, s.stop, cur.price⟩ rest) ∧
    (¬(round6 s.price = cur.price ∧ s.start = cur.stop) →
      fuseLoop cur (s :: rest)
        = cur :: fuseLoop ⟨s.start, s.stop, round6 s.price⟩ rest) ∧
    (∀ a b : TariffSlot, round6 a.price = round6 b.price → b.start ≠ a.stop →
      fuseSlots [a, b] = [⟨a.start, a.stop, round6 a.price⟩,
                          ⟨b.start, b.stop, round6 b.price⟩]) := by
  refine ⟨rfl, ?_, ?_, ?_⟩
  · intro h
    simp only [fuseLoop, if_pos h]
  · intro h
    simp only [fuseLoop, if_neg h]
  · intro a b hp hgap
    have hcond : ¬(round6 b.price = round6 a.price ∧ b.start = a.stop) := by
      rintro ⟨_, h2⟩
      exact hgap h2
    simp only [fuseSlots, fuseLoop, if_neg hcond]

/-- Witness for C1: two contiguous equal-priced slots merge; a gap between
equal-priced slots starts a new interval instead. -/
theorem fuse_merge_conditions_witness :
    fuseLoop ⟨0, 15, 1⟩ [⟨15, 30, (1 : ℚ)⟩] = fuseLoop ⟨0, 30, 1⟩ [] ∧
    fuseSlots [⟨0, 15, (1 : ℚ)⟩, ⟨30, 45, (1 : ℚ)⟩]
      = [⟨0, 15, round6 1⟩, ⟨30, 45, round6 1⟩] := by
  have h1 := (fuse_merge_conditions ⟨0, 15, 1⟩ ⟨15, 30, 1⟩ []).2.1
  have h2 := (fuse_merge_conditions ⟨0, 15, 1⟩ ⟨15, 30, 1⟩ []).2.2.2
    ⟨0, 15, (1 : ℚ)⟩ ⟨30, 45, (1 : ℚ)⟩ rfl (by decide)
  exact ⟨h1 ⟨by norm_num [round6], rfl⟩, h2⟩

/-- Adjacent-output separation predicate: re-fusing will not merge `b`
into `a`. -/
def NoMerge (a b : FusedEvent) : Prop :=
  ¬(round6 b.price = a.price ∧ b.start = a.stop)

/-- The output of the fuse loop is nonempty and its head keeps the start
and price of the running interval. -/
theorem fuseLoop_head (xs : List TariffSlot) :
    ∀ cur : FusedEvent, ∃ t rest',
      fuseLoop cur xs = ⟨cur.start, t, cur.price⟩ :: rest' := by
  induction xs with
  | nil => intro cur; exact ⟨cur.stop, [], rfl⟩
  | cons s rest ih =>
    intro cur
    by_cases h : round6 s.price = cur.price ∧ s.start = cur.stop
    · obtain ⟨t, rest', ht⟩ := ih ⟨cur.start, s.stop, cur.price⟩
      exact ⟨t, rest', by simp only [fuseLoop, if_pos h]; exact ht⟩
    · refine ⟨cur.stop, fuseLoop ⟨s.start, s.stop, round6 s.price⟩ rest, ?_⟩
      simp only [fuseLoop, if_neg h]

/-- Adjacent intervals emitted by the fuse loop never satisfy the merge
condition. -/
theorem fuseLoop_chain (xs : List TariffSlot) :
    ∀ cur : FusedEvent, List.Chain' NoMerge (fuseLoop cur xs) := by
  induction xs with
  | nil => intro cur; simp [fuseLoop]
  | cons s rest ih =>
    intro cur
    by_cases h : round6 s.price = cur.price ∧ s.start = cur.stop
    · simp only [fuseLoop, if_pos h]; exact ih _
    · simp only [fuseLoop, if_neg h]
      obtain ⟨t, rest', ht⟩ := fuseLoop_head rest ⟨s.start, s.stop, round6 s.price⟩
      rw [ht]
      refine List.chain'_cons.2 ⟨?_, ht ▸ ih ⟨s.start, s.stop, round6 s.price⟩⟩
      rintro ⟨hp, hs⟩
      exact h ⟨by simpa [round6_idem] using hp, hs⟩

/-- Every price stored by the fuse loop is a fixed point of round6. -/
theorem fuseLoop_prices_fixed (xs : List TariffSlot) :
    ∀ cur : FusedEvent, round6 cur.price = cur.price →
      ∀ e ∈ fuseLoop cur xs, round6 e.price = e.price := by
  induction xs with
  | nil =>
    intro cur hcur e he
    simp only [fuseLoop, List.mem_singleton] at he
    subst he; exact hcur
  | cons s rest ih =>
    intro cur hcur e he
    by_cases h : round6 s.price = cur.price ∧ s.start = cur.stop
    · simp only [fuseLoop, if_pos h] at he
      exact ih ⟨cur.start, s.stop, cur.price⟩ hcur e he
    · simp only [fuseLoop, if_neg h, List.mem_cons] at he
      rcases he with he | he
      · subst he; exact hcur
      · exact ih ⟨s.start, s.stop, round6 s.price⟩ (round6_idem _) e he

/-- Re-fusing a separated list of round6-fixed intervals returns it
unchanged (loop form). -/
theorem fuseLoop_of_separated (rest : List FusedEvent) :
    ∀ a : FusedEvent, List.Chain' NoMerge (a :: rest) →
      (∀ e ∈ rest, round6 e.price = e.price) →
      fuseLoop a (fuse_as_slots rest) = a :: rest := by
  induction rest with
  | nil => intro a _ _; rfl
  | cons b rest' ih =>
    intro a hchain hfix
    have hab : NoMerge a b := (List.chain'_cons.1 hchain).1
    have hbfix : round6 b.price = b.price := hfix b (List.mem_cons_self _ _)
    have hcond : ¬(round6 b.price = a.price ∧ b.start = a.stop) := hab
    have hstep : fuseLoop a (fuse_as_slots (b :: rest'))
        = a :: fuseLoop ⟨b.start, b.stop, round6 b.price⟩ (fuse_as_slots rest') := by
      simp only [fuse_as_slots, List.map_cons, fuseLoop, if_neg hcond]
    rw [hstep, hbfix]
    have : fuseLoop ⟨b.start, b.stop, b.price⟩ (fuse_as_slots rest') = b :: rest' :=
      ih b (List.chain'_cons.1 hchain).2
        (fun e he => hfix e (List.mem_cons_of_mem _ he))
    rw [this]

/-- C7: Fusion is idempotent: re-expressing the output of fuse_slots as
slots (same start, end, price) and fusing again yields exactly the same
interval sequence as the first fusion. -/
theorem fuse_idempotent (slots : List TariffSlot) :
    fuseSlots (fuse_as_slots (fuseSlots slots)) = fuseSlots slots := by
  cases slots with
  | nil => rfl
  | cons s rest =>
    set c : FusedEvent := ⟨s.start, s.stop, round6 s.price⟩ with hc
    have hfix : ∀ e ∈ fuseLoop c rest, round6 e.price = e.price :=
      fuseLoop_prices_fixed rest c (by simp [hc, round6_idem])
    have hchain := fuseLoop_chain rest c
    obtain ⟨t, rest', hhead⟩ := fuseLoop_head rest c
    have hres : fuseSlots (s :: rest) = fuseLoop c rest := rfl
    rw [hres, hhead]
    have hhfix : round6 (⟨c.start, t, c.price⟩ : FusedEvent).price
        = (⟨c.start, t, c.price⟩ : FusedEvent).price := by
      have := hfix ⟨c.start, t, c.price⟩ (by rw [hhead]; exact List.mem_cons_self _ _)
      simpa using this
    have hfix' : ∀ e ∈ rest', round6 e.price = e.price := by
      intro e he
      exact hfix e (by rw [hhead]; exact List.mem_cons_of_mem _ he)
    have hchain' : List.Chain' NoMerge ((⟨c.start, t, c.price⟩ : FusedEvent) :: rest') := by
      rw [← hhead]; exact hchain
    have hseed : fuseSlots (fuse_as_slots ((⟨c.start, t, c.price⟩ : FusedEvent) :: rest'))
        = fuseLoop ⟨c.start, t, round6 c.price⟩ (fuse_as_slots rest') := rfl
    rw [hseed]
    have hcfix : round6 c.price = c.price := by simp [hc, round6_idem]
    rw [hcfix]
    exact fuseLoop_of_separated rest' ⟨c.start, t, c.price⟩ hchain' hfix'

/-- Containment test of `_find_current_slot` (sensor.py line 34):
`s.start <= now < s.end`. -/
def slotContains (s : FusedEvent) (now : Time) : Bool :=
  decide (s.start ≤ now) && decide (now < s.stop)

/-- `_find_current_slot` (sensor.py lines 32-36): first fused interval
containing `now`, else none. -/
def findCurrentSlot (slots : List FusedEvent) (now : Time) : Option FusedEvent :=
  slots.find? (fun s => slotContains s now)

/-- `_find_next_boundary` (sensor.py lines 39-54): the end of the current
interval if inside one, else the start of the first interval with
`start > now`, else none. -/
def findNextBoundary (slots : List FusedEvent) (now : Time) : Option Time :=
  match findCurrentSlot slots now with
  | some cur => some cur.stop
  | none => (slots.find? (fun s => decide (now < s.start))).map (fun s => s.start)

theorem find?_first_mem {α : Type} (p : α → Bool) (l₁ l₂ : List α) (c : α)
    (h₁ : ∀ x ∈ l₁, p x = false) (hc : p c = true) :
    (l₁ ++ c :: l₂).find? p = some c := by
  induction l₁ with
  | nil => simpa using List.find?_cons_of_pos _ hc
  | cons a t ih =>
    have ha : ¬p a = true := by
      simp [h₁ a (List.mem_cons_self _ _)]
    simpa [List.find?_cons_of_neg _ ha] using
      ih (fun x hx => h₁ x (List.mem_cons_of_mem _ hx))

theorem findCurrentSlot_eq_none {slots : List FusedEvent} {now : Time}
    (h : ∀ s ∈ slots, ¬(s.start ≤ now ∧ now < s.stop)) :
    findCurrentSlot slots now = none := by
  rw [findCurrentSlot, List.find?_eq_none]
  intro s hs
  simp only [slotContains, Bool.and_eq_true, decide_eq_true_eq]
  exact fun hcontra => h s hs hcontra

/-- C6: find_current returns an interval satisfying start <= now < end
when one exists in the list, and absent when no interval in the list
contains now. -/
theorem find_current_spec (slots : List FusedEvent) (now : Time) :
    (∀ c, findCurrentSlot slots now = some c →
      c ∈ slots ∧ c.start ≤ now ∧ now < c.stop) ∧
    ((∃ s ∈ slots, s.start ≤ now ∧ now < s.stop) →
      ∃ c, findCurrentSlot slots now = some c) ∧
    ((∀ s ∈ slots, ¬(s.start ≤ now ∧ now < s.stop)) →
      findCurrentSlot slots now = none) := by
  refine ⟨?_, ?_, ?_⟩
  · intro c hc
    have hmem := List.mem_of_find?_eq_some hc
    have hp := List.find?_some hc
    simp only [slotContains, Bool.and_eq_true, decide_eq_true_eq] at hp
    exact ⟨hmem, hp.1, hp.2⟩
  · rintro ⟨s, hs, h1, h2⟩
    have : (slots.find? (fun s => slotContains s now)).isSome = true := by
      rw [List.find?_isSome]
      exact ⟨s, hs, by simp [slotContains, h1, h2]⟩
    obtain ⟨c, hc⟩ := Option.isSome_iff_exists.1 this
    exact ⟨c, hc⟩
  · exact findCurrentSlot_eq_none

/-- Witness for C6: a list where the second interval contains now, and a
list where no interval contains now. -/
theorem find_current_spec_witness :
    ((⟨10, 20, 2⟩ : FusedEvent) ∈ [(⟨0, 5, 1⟩ : FusedEvent), ⟨10, 20, 2⟩]
      ∧ (10 : Int) ≤ 12 ∧ (12 : Int) < 20) ∧
    (∃ c, findCurrentSlot [(⟨0, 5, (1 : ℚ)⟩ : FusedEvent), ⟨10, 20, 2⟩] 12 = some c) ∧
    findCurrentSlot [(⟨0, 5, (1 : ℚ)⟩ : FusedEvent), ⟨10, 20, 2⟩] 7 = none := by
  refine ⟨?_, ?_, ?_⟩
  · exact (find_current_spec [⟨0, 5, 1⟩, ⟨10, 20, 2⟩] 12).1 ⟨10, 20, 2⟩ (by decide)
  · exact (find_current_spec [⟨0, 5, 1⟩, ⟨10, 20, 2⟩] 12).2.1
      ⟨⟨10, 20, 2⟩, by decide, by decide, by decide⟩
  · exact (find_current_spec [⟨0, 5, 1⟩, ⟨10, 20, 2⟩] 7).2.2 (by decide)

/-- C5: find_next_boundary returns the end of the interval containing now
when such an interval exists, otherwise the start of the first interval
with start strictly greater than now, otherwise absent. -/
theorem find_next_boundary_spec (slots : List FusedEvent) (now : Time) :
    (∀ c, findCurrentSlot slots now = some c →
      findNextBoundary slots now = some c.stop) ∧
    ((∀ s ∈ slots, ¬(s.start ≤ now ∧ now < s.stop)) →
      ∀ l₁ c l₂, slots = l₁ ++ c :: l₂ → (∀ x ∈ l₁, ¬ now < x.start) →
        now < c.start → findNextBoundary slots now = some c.start) ∧
    ((∀ s ∈ slots, ¬(s.start ≤ now ∧ now < s.stop)) →
      (∀ s ∈ slots, ¬ now < s.start) →
      findNextBoundary slots now = none) := by
  refine ⟨?_, ?_, ?_⟩
  · intro c hc
    simp [findNextBoundary, hc]
  · intro hnone l₁ c l₂ hsplit hl₁ hc
    have hcur : findCurrentSlot slots now = none :=
      findCurrentSlot_eq_none hnone
    have hfind : slots.find? (fun s => decide (now < s.start)) = some c := by
      rw [hsplit]
      exact find?_first_mem _ l₁ l₂ c
        (fun x hx => by simp [hl₁ x hx]) (by simp [hc])
    simp [findNextBoundary, hcur, hfind]
  · intro hnone hlater
    have hcur : findCurrentSlot slots now = none :=
      findCurrentSlot_eq_none hnone
    have hfind : slots.find? (fun s => decide (now < s.start)) = none := by
      rw [List.find?_eq_none]
      intro s hs
      simp [hlater s hs]
    simp [findNextBoundary, hcur, hfind]

/-- Witness for C5: inside an interval the boundary is its end; in a gap
it is the next start; past the schedule it is absent. -/
theorem find_next_boundary_spec_witness :
    findNextBoundary [(⟨0, 5, (1 : ℚ)⟩ : FusedEvent), ⟨10, 20, 2⟩] 3 = some 5 ∧
    findNextBoundary [(⟨0, 5, (1 : ℚ)⟩ : FusedEvent), ⟨10, 20, 2⟩] 7 = some 10 ∧
    findNextBoundary [(⟨0, 5, (1 : ℚ)⟩ : FusedEvent), ⟨10, 20, 2⟩] 25 = none := by
  refine ⟨?_, ?_, ?_⟩
  · exact (find_next_boundary_spec [⟨0, 5, 1⟩, ⟨10, 20, 2⟩] 3).1 ⟨0, 5, 1⟩ (by decide)
  · exact (find_next_boundary_spec [⟨0, 5, 1⟩, ⟨10, 20, 2⟩] 7).2.1 (by decide)
      [⟨0, 5, 1⟩] ⟨10, 20, 2⟩ [] rfl (by decide) (by decide)
  · exact (find_next_boundary_spec [⟨0, 5, 1⟩, ⟨10, 20, 2⟩] 25).2.2
      (by decide) (by decide)

/-- Payload of the `ekz_tariffs_event` tariff-start event fired by the
calendar (calendar.py lines 81-91): the fields `start` and `end` of the
event dictionary (both set from the captured interval start). -/
structure TariffStartEventData where
  evStart : Time
  evEnd : Time
  price : Price
deriving DecidableEq, Repr

/-- `EkzTariffsCalendar._schedule_callbacks` (calendar.py lines 71-95):
for every fused interval starting strictly after now, one callback is
scheduled; when it fires it carries `start := fe.start` and
`end := fe.start` (the code passes `start.isoformat()` for both keys). -/
def scheduleCallbacks (fused : List FusedEvent) (now : Time) :
    List TariffStartEventData :=
  (fused.filter (fun fe => decide (now < fe.start))).map
    (fun fe => ⟨fe.start, fe.start, fe.price⟩)

/-- C10: For every fused interval whose start lies in the future, the
tariff-start event fired by the scheduled callback carries an end field
equal to the interval start timestamp (identical to its start field),
not the interval end. -/
theorem calendar_event_end_is_start (fused : List FusedEvent) (now : Time) :
    (∀ ev ∈ scheduleCallbacks fused now, ev.evEnd = ev.evStart) ∧
    (∀ fe ∈ fused, now < fe.start →
      (⟨fe.start, fe.start, fe.price⟩ : TariffStartEventData)
        ∈ scheduleCallbacks fused now) ∧
    (∀ ev ∈ scheduleCallbacks fused now, ∃ fe ∈ fused, now < fe.start ∧
      ev.evStart = fe.start ∧ ev.evEnd = fe.start ∧
      (fe.start ≠ fe.stop → ev.evEnd ≠ fe.stop)) := by
  refine ⟨?_, ?_, ?_⟩
  · intro ev hev
    simp only [scheduleCallbacks, List.mem_map] at hev
    obtain ⟨fe, _, rfl⟩ := hev
    rfl
  · intro fe hfe hnow
    simp only [scheduleCallbacks, List.mem_map]
    exact ⟨fe, List.mem_filter.2 ⟨hfe, by simp [hnow]⟩, rfl⟩
  · intro ev hev
    simp only [scheduleCallbacks, List.mem_map] at hev
    obtain ⟨fe, hfe, rfl⟩ := hev
    have hmem := (List.mem_filter.1 hfe).1
    have hnow : now < fe.start := by
      have := (List.mem_filter.1 hfe).2
      simpa using this
    exact ⟨fe, hmem, hnow, rfl, rfl, fun hne => fun h => hne h⟩

/-- Witness for C10: one future interval from 30 to 60 produces an event
whose end field is 30, the interval start. -/
theorem calendar_event_end_is_start_witness :
    (⟨30, 30, (1 : ℚ)⟩ : TariffStartEventData)
      ∈ scheduleCallbacks [(⟨30, 60, (1 : ℚ)⟩ : FusedEvent)] 0 ∧
    (∀ ev ∈ scheduleCallbacks [(⟨30, 60, (1 : ℚ)⟩ : FusedEvent)] 0,
      ev.evEnd = ev.evStart) := by
  constructor
  · exact (calendar_event_end_is_start [⟨30, 60, 1⟩] 0).2.1
      ⟨30, 60, 1⟩ (by decide) (by decide)
  · exact (calendar_event_end_is_start [⟨30, 60, 1⟩] 0).1

/-- Outcome of the fetch performed inside
`EkzTariffsOAuthCoordinator._async_update_data` (coordinator.py lines
111-140): success with slots, an aiohttp `ClientResponseError` carrying
an HTTP status, or any other exception. -/
inductive FetchOutcome where
  | ok (slots : List TariffSlot)
  | clientResponseError (status : Nat)
  | otherError
deriving DecidableEq, Repr

/-- Result of one refresh of the OAuth coordinator: the method either
returns a value (Python permits the implicit `None` fall-through, modelled
as `returns none`) or raises `UpdateFailed`. -/
inductive UpdateOutcome where
  | returns (slots : Option (List TariffSlot))
  | raisesUpdateFailed
deriving DecidableEq, Repr

/-- `EkzTariffsOAuthCoordinator._async_update_data` control flow
(coordinator.py lines 111-140): on success return the slots; on
`ClientResponseError` with status 400 return the empty list; on
`ClientResponseError` with any other status the `except` block falls
through and the method implicitly returns `None`; on any other exception
raise `UpdateFailed`. -/
def oauthUpdateData : FetchOutcome → UpdateOutcome
  | .ok slots => .returns (some slots)
  | .clientResponseError status =>
      if status = 400 then .returns (some []) else .returns none
  | .otherError => .raisesUpdateFailed

/-- C8 (code bug evidence): an HTTP 400 client response error degrades to
an empty slot list, and any other exception raises UpdateFailed, but a
ClientResponseError with a status other than 400 (e.g. 500) makes the
update implicitly return None instead of raising UpdateFailed, contrary
to the claim that no other outcome is possible. -/
theorem oauth_update_outcomes :
    oauthUpdateData (.clientResponseError 400) = .returns (some []) ∧
    oauthUpdateData .otherError = .raisesUpdateFailed ∧
    (∀ slots, oauthUpdateData (.ok slots) = .returns (some slots)) ∧
    oauthUpdateData (.clientResponseError 500) = .returns none ∧
    oauthUpdateData (.clientResponseError 500) ≠ .raisesUpdateFailed := by
  refine ⟨rfl, rfl, fun slots => rfl, rfl, by decide⟩

/-- One entry of the `integrated` component list of an API price item
(api.py lines 85-88): a unit string and an optional numeric value. -/
structure PriceComponent where
  unit : String
  value : Option Price
deriving DecidableEq, Repr

/-- One entry of the `prices` list of the API payload (api.py lines
79-91): optional parsed timestamps (None models an unparseable string)
and the `integrated` component list. -/
structure PriceItem where
  startTs : Option Time
  endTs : Option Time
  integrated : List PriceComponent
deriving DecidableEq, Repr

/-- Price extraction loop (api.py lines 84-88): the value of the first
component whose unit is CHF_kWh, if any. -/
def extractPrice (comps : List PriceComponent) : Option Price :=
  (comps.find? (fun c => c.unit == "CHF_kWh")).bind (fun c => c.value)

/-- Comparison key of the final `slots.sort(key=lambda s: s.start)`
(api.py line 101). -/
def slotLE (a b : TariffSlot) : Prop := a.start ≤ b.start

instance : DecidableRel slotLE := fun a b => Int.decLe a.start b.start

instance : IsTotal TariffSlot slotLE := ⟨fun a b => Int.le_total a.start b.start⟩

instance : IsTrans TariffSlot slotLE := ⟨fun _ _ _ h1 h2 => le_trans h1 h2⟩

/-- `EkzTariffsApi._parse_tariff_slots` (api.py lines 76-102): keep the
items with both timestamps parseable and a CHF_kWh price component, build
a slot from each, then sort ascending by start (Python list.sort is a
stable sort; insertion sort is used as the model). -/
def parseTariffSlots (items : List PriceItem) : List TariffSlot :=
  List.insertionSort slotLE
    (items.filterMap (fun it =>
      match it.startTs, it.endTs, extractPrice it.integrated with
      | some s, some e, some p => some ⟨s, e, p⟩
      | _, _, _ => none))

/-- Pairwise non-overlap of a slot list: any two slots are adjacent or
disjoint. -/
def PairwiseDisjoint (slots : List TariffSlot) : Prop :=
  List.Pairwise (fun a b => a.stop ≤ b.start ∨ b.stop ≤ a.start) slots

/-- Counterexample to C9: a payload whose two items describe overlapping
ranges [0,10) and [5,15) parses to an overlapping slot list, so parsing
does not establish pairwise non-overlap. -/
theorem parse_overlap_counterexample :
    ¬ PairwiseDisjoint (parseTariffSlots
      [⟨some 0, some 10, [⟨"CHF_kWh", some 1⟩]⟩,
       ⟨some 5, some 15, [⟨"CHF_kWh", some 2⟩]⟩]) := by
  have hres : parseTariffSlots
      [⟨some 0, some 10, [⟨"CHF_kWh", some (1 : ℚ)⟩]⟩,
       ⟨some 5, some 15, [⟨"CHF_kWh", some (2 : ℚ)⟩]⟩]
      = [⟨0, 10, 1⟩, ⟨5, 15, 2⟩] := by
    rfl
  rw [hres]
  intro hpd
  have := List.rel_of_pairwise_cons hpd (List.mem_singleton.2 rfl)
  rcases this with h | h
  · exact absurd h (by decide)
  · exact absurd h (by decide)

/-- C9 (amended): For every API response payload, the slot list produced
by parsing a tariff fetch is sorted ascending by start; pairwise
non-overlap is not established by parsing and holds only when the payload
itself is non-overlapping. -/
theorem parse_sorted_by_start (items : List PriceItem) :
    List.Sorted slotLE (parseTariffSlots items) :=
  List.sorted_insertionSort slotLE _

/-- Mode of the rolling-window search: pick the window with minimal or
maximal average price. -/
inductive Mode where
  | minMode
  | maxMode
deriving DecidableEq, Repr

/-- Modelled from the spec: the bucket sub-grid of a candidate window
(spec section 4.3); `statistics.py` with `rolling_window_extreme` is
absent from src, only its callers are present. -/
def windowBuckets (prices : List (Option Price)) (i len : Nat) :
    List (Option Price) :=
  (prices.drop i).take len

/-- Modelled from the spec: the score of candidate window `i` (spec
section 4.3).  A candidate is eligible only if all `len` buckets of the
window are present; an eligible candidate scores the arithmetic mean of
its bucket prices, an ineligible one scores nothing. -/
def windowScore (prices : List (Option Price)) (i len : Nat) : Option Price :=
  let w := windowBuckets prices i len
  if w.length = len ∧ w.all (fun b => b.isSome) then
    some ((w.filterMap id).sum / (len : ℚ))
  else
    none

/-- Modelled from the spec: the eligible candidates, scanned left to
right (spec section 4.3: start indices 0 to N - window_len inclusive). -/
def candidates (prices : List (Option Price)) (len : Nat) :
    List (Nat × Price) :=
  (List.range (prices.length + 1 - len)).filterMap
    (fun i => (windowScore prices i len).map (fun s => (i, s)))

/-- Strict-improvement comparison of candidate scores: in min mode a
lower score is strictly better, in max mode a higher one. -/
def better (mode : Mode) (a b : Price) : Bool :=
  match mode with
  | .minMode => decide (a < b)
  | .maxMode => decide (b < a)

/-- One step of the left-to-right scan: a new candidate replaces the
current best only on strict improvement. -/
def pickBest (mode : Mode) (acc : Option (Nat × Price)) (c : Nat × Price) :
    Option (Nat × Price) :=
  match acc with
  | none => some c
  | some b => if better mode c.2 b.2 then some c else some b

/-- WindowResult (spec section 3): window start, end and winning average
score. -/
structure WindowResult where
  start : Time
  stop : Time
  avg : Price
deriving DecidableEq, Repr

/-- Modelled from the spec: `rolling_window_extreme(buckets, day_start,
window_minutes, mode)` (spec section 4.3); `statistics.py` is absent from
src.  Window length in buckets is `window_minutes / bucket_minutes`;
the eligible candidate with the extreme score wins, earliest start index
first; absent when no candidate is eligible. -/
def rollingWindowExtreme (prices : List (Option Price)) (dayStart : Time)
    (windowMinutes bucketMinutes : Nat) (mode : Mode) : Option WindowResult :=
  ((candidates prices (windowMinutes / bucketMinutes)).foldl (pickBest mode) none).map
    (fun c => ⟨dayStart + ((c.1 * bucketMinutes : Nat) : Int),
               dayStart + (((c.1 + windowMinutes / bucketMinutes) * bucketMinutes : Nat) : Int),
               c.2⟩)

/-- `EkzWindowExtremeSensor.native_value` outcome (sensor_window_extreme.py
lines 74-87): the rounded winning average, or None when the rolling
window search is absent.  The bucket grid argument stands for the result
of `bucket_prices`. -/
def windowExtremeNativeValue (prices : List (Option Price)) (dayStart : Time)
    (windowMinutes bucketMinutes : Nat) (mode : Mode) : Option Price :=
  match rollingWindowExtreme prices dayStart windowMinutes bucketMinutes mode with
  | none => none
  | some r => some (round6 r.avg)

/-- C2: a candidate window is eligible only if all buckets inside it are
present (a single missing bucket disqualifies the whole window, it is
never partially scored), and when no candidate window is eligible the
function returns an absent result; the window-extreme sensor surfaces
that absent result as an unknown (None) state. -/
theorem rolling_window_missing_policy (prices : List (Option Price))
    (dayStart : Time) (wm bm : Nat) (mode : Mode) :
    (∀ i len j, j < len → prices[i + j]? = some none →
      windowScore prices i len = none) ∧
    (0 < wm / bm → (∀ i < prices.length, windowScore prices i (wm / bm) = none) →
      rollingWindowExtreme prices dayStart wm bm mode = none) ∧
    (rollingWindowExtreme prices dayStart wm bm mode = none →
      windowExtremeNativeValue prices dayStart wm bm mode = none) := by
  refine ⟨?_, ?_, ?_⟩
  · intro i len j hj hmiss
    rw [windowScore]
    have hw : (windowBuckets prices i len)[j]? = some none := by
      rw [windowBuckets, List.getElem?_take, if_pos hj, List.getElem?_drop]
      exact hmiss
    have hmem : (none : Option Price) ∈ windowBuckets prices i len := by
      exact List.getElem?_mem hw
    have hall : ¬((windowBuckets prices i len).all (fun b => b.isSome) = true) := by
      intro hall
      have := List.all_eq_true.1 hall _ hmem
      simp at this
    simp only [if_neg (fun hc => hall (And.right hc))]
  · intro hlen hall
    have hcand : candidates prices (wm / bm) = [] := by
      rw [candidates, List.filterMap_eq_nil_iff]
      intro i hi
      have hir : i < prices.length + 1 - (wm / bm) := List.mem_range.1 hi
      have hi' : i < prices.length := by omega
      rw [hall i hi']
      rfl
    simp [rollingWindowExtreme, hcand]
  · intro h
    rw [windowExtremeNativeValue, h]

/-- Witness for C2: grid [missing, 0.3] with a 30-minute window over
15-minute buckets; the only full-length window contains the gap, so the
search is absent and the sensor state is None. -/
theorem rolling_window_missing_policy_witness :
    windowScore [none, some (3 : ℚ)] 0 2 = none ∧
    rollingWindowExtreme [none, some (3 : ℚ)] 0 30 15 .minMode = none ∧
    windowExtremeNativeValue [none, some (3 : ℚ)] 0 30 15 .minMode = none := by
  have h := rolling_window_missing_policy [none, some (3 : ℚ)] 0 30 15 .minMode
  refine ⟨h.1 0 2 0 (by decide) (by decide), ?_, ?_⟩
  · exact h.2.1 (by decide) (by decide)
  · exact h.2.2 (h.2.1 (by decide) (by decide))

theorem better_irrefl (mode : Mode) (a : Price) : better mode a a = false := by
  cases mode <;> simp [better]

theorem better_trans (mode : Mode) {a b c : Price}
    (h1 : better mode a b = true) (h2 : better mode b c = true) :
    better mode a c = true := by
  cases mode <;> simp only [better, decide_eq_true_eq] at * <;> linarith

theorem better_asymm (mode : Mode) {a b : Price}
    (h : better mode a b = true) : better mode b a = false := by
  cases mode <;> simp only [better, decide_eq_true_eq, decide_eq_false_iff_not] at * <;>
    linarith

theorem better_neg_trans (mode : Mode) {a b c : Price}
    (hab : better mode a b = false) (hbc : better mode b c = false) :
    better mode a c = false := by
  cases mode <;> simp only [better, decide_eq_false_iff_not, not_lt] at * <;> linarith

theorem better_pos_neg (mode : Mode) {r b c : Price}
    (hrb : better mode r b = true) (hcb : better mode c b = false) :
    better mode r c = true := by
  cases mode <;>
    simp only [better, decide_eq_true_eq, decide_eq_false_iff_not, not_lt] at * <;>
    linarith

/-- Invariant of the left-to-right strict-improvement scan starting from
a current best `b`: the final best is optimal and strictly better than
every eligible candidate with a smaller index. -/
theorem foldl_pickBest_spec (mode : Mode) :
    ∀ (l : List (Nat × Price)) (b r : Nat × Price),
      List.Pairwise (fun a c => a.1 < c.1) l →
      (∀ q ∈ l, b.1 < q.1) →
      l.foldl (pickBest mode) (some b) = some r →
      (r = b ∨ r ∈ l) ∧
      better mode b.2 r.2 = false ∧
      (∀ q ∈ l, better mode q.2 r.2 = false) ∧
      (∀ q ∈ l, q.1 < r.1 → better mode r.2 q.2 = true) ∧
      (b.1 < r.1 → better mode r.2 b.2 = true) := by
  intro l
  induction l with
  | nil =>
    intro b r _ _ hfold
    simp only [List.foldl_nil, Option.some.injEq] at hfold
    subst hfold
    exact ⟨Or.inl rfl, better_irrefl mode _, by simp, by simp,
      fun h => absurd h (lt_irrefl _)⟩
  | cons c t ih =>
    intro b r hpw hgt hfold
    have hpw_t : List.Pairwise (fun a c => a.1 < c.1) t := hpw.of_cons
    have hct : ∀ q ∈ t, c.1 < q.1 := fun q hq => (List.pairwise_cons.1 hpw).1 q hq
    have hbc : b.1 < c.1 := hgt c (List.mem_cons_self _ _)
    simp only [List.foldl_cons] at hfold
    have hpb : pickBest mode (some b) c
        = if better mode c.2 b.2 then some c else some b := rfl
    by_cases hcb : better mode c.2 b.2 = true
    · rw [hpb, if_pos hcb] at hfold
      obtain ⟨hmem, h2, h3, h4, h5⟩ := ih c r hpw_t hct hfold
      refine ⟨?_, ?_, ?_, ?_, ?_⟩
      · rcases hmem with rfl | hmem
        · exact Or.inr (List.mem_cons_self _ _)
        · exact Or.inr (List.mem_cons_of_mem _ hmem)
      · cases hbr : better mode b.2 r.2 with
        | false => rfl
        | true =>
          exfalso
          rcases hmem with rfl | _
          · simpa [hbr] using better_asymm mode hcb
          · simpa [h2] using better_trans mode hcb hbr
      · intro q hq
        rcases List.mem_cons.1 hq with rfl | hq
        · exact h2
        · exact h3 q hq
      · intro q hq hqr
        rcases List.mem_cons.1 hq with rfl | hq
        · exact h5 hqr
        · exact h4 q hq hqr
      · intro _
        rcases hmem with rfl | hmem
        · exact hcb
        · exact better_trans mode (h5 (hct r hmem)) hcb
    · rw [hpb, if_neg hcb] at hfold
      push_neg at hcb
      have hcb' : better mode c.2 b.2 = false := by
        simpa using hcb
      obtain ⟨hmem, h2, h3, h4, h5⟩ := ih b r hpw_t
        (fun q hq => hgt q (List.mem_cons_of_mem _ hq)) hfold
      refine ⟨?_, h2, ?_, ?_, h5⟩
      · rcases hmem with rfl | hmem
        · exact Or.inl rfl
        · exact Or.inr (List.mem_cons_of_mem _ hmem)
      · intro q hq
        rcases List.mem_cons.1 hq with rfl | hq
        · exact better_neg_trans mode hcb' h2
        · exact h3 q hq
      · intro q hq hqr
        rcases List.mem_cons.1 hq with rfl | hq
        · rcases hmem with rfl | hmem
          · exact absurd hqr (by omega)
          · exact better_pos_neg mode (h5 (hgt r (List.mem_cons_of_mem _ hmem))) hcb'
        · exact h4 q hq hqr

/-- The scan started from no current best returns an eligible candidate
that no candidate strictly beats and that strictly beats every
smaller-index candidate. -/
theorem foldl_pickBest_none_spec (mode : Mode) (l : List (Nat × Price))
    (r : Nat × Price)
    (hpw : List.Pairwise (fun a c => a.1 < c.1) l)
    (hfold : l.foldl (pickBest mode) none = some r) :
    r ∈ l ∧ (∀ q ∈ l, better mode q.2 r.2 = false) ∧
      (∀ q ∈ l, q.1 < r.1 → better mode r.2 q.2 = true) := by
  cases l with
  | nil => simp at hfold
  | cons c t =>
    have h : t.foldl (pickBest mode) (some c) = some r := by
      simpa [pickBest] using hfold
    obtain ⟨hmem, h2, h3, h4, h5⟩ := foldl_pickBest_spec mode t c r hpw.of_cons
      (fun q hq => (List.pairwise_cons.1 hpw).1 q hq) h
    refine ⟨?_, ?_, ?_⟩
    · rcases hmem with rfl | hmem
      · exact List.mem_cons_self _ _
      · exact List.mem_cons_of_mem _ hmem
    · intro q hq
      rcases List.mem_cons.1 hq with rfl | hq
      · exact h2
      · exact h3 q hq
    · intro q hq hqr
      rcases List.mem_cons.1 hq with rfl | hq
      · exact h5 hqr
      · exact h4 q hq hqr

theorem windowScore_some_index {prices : List (Option Price)} {i len : Nat}
    {s : Price} (h0 : 0 < len) (h : windowScore prices i len = some s) :
    i < prices.length + 1 - len := by
  rw [windowScore] at h
  by_cases hc : (windowBuckets prices i len).length = len ∧
      (windowBuckets prices i len).all (fun b => b.isSome) = true
  · have hlen := hc.1
    rw [windowBuckets, List.length_take, List.length_drop] at hlen
    have hle : len ≤ prices.length - i := inf_eq_left.1 hlen
    omega
  · rw [if_neg hc] at h
    exact absurd h (by simp)

theorem mem_candidates {prices : List (Option Price)} {len i : Nat} {s : Price}
    (h0 : 0 < len) :
    (i, s) ∈ candidates prices len ↔ windowScore prices i len = some s := by
  rw [candidates, List.mem_filterMap]
  constructor
  · rintro ⟨a, _, hmap⟩
    rcases hsc : windowScore prices a len with _ | t
    · rw [hsc] at hmap
      exact absurd hmap (by simp)
    · rw [hsc] at hmap
      simp only [Option.map_some', Option.some.injEq, Prod.mk.injEq] at hmap
      obtain ⟨rfl, rfl⟩ := hmap
      exact hsc
  · intro h
    refine ⟨i, List.mem_range.2 (windowScore_some_index h0 h), ?_⟩
    rw [h]
    rfl

theorem candidates_pairwise (prices : List (Option Price)) (len : Nat) :
    List.Pairwise (fun a c => a.1 < c.1) (candidates prices len) := by
  refine List.Pairwise.filterMap _ ?_ (List.pairwise_lt_range _)
  intro a a' hlt b hb b' hb'
  rcases hsc : windowScore prices a len with _ | t <;> rw [hsc] at hb
  · exact absurd hb (by simp)
  rcases hsc' : windowScore prices a' len with _ | t' <;> rw [hsc'] at hb'
  · exact absurd hb' (by simp)
  simp only [Option.map_some', Option.mem_def, Option.some.injEq] at hb hb'
  subst hb
  subst hb'
  exact hlt

/-- C3: rolling_window_extreme returns the eligible candidate with the
earliest start index among those achieving the extreme average score
(left-to-right scan where only a strict improvement replaces the current
best), for both mode min and mode max. -/
theorem rolling_window_tie_break (prices : List (Option Price))
    (dayStart : Time) (wm bm : Nat) (mode : Mode) (w : WindowResult)
    (hlen : 0 < wm / bm)
    (hres : rollingWindowExtreme prices dayStart wm bm mode = some w) :
    ∃ i, windowScore prices i (wm / bm) = some w.avg ∧
      w.start = dayStart + ((i * bm : Nat) : Int) ∧
      w.stop = dayStart + (((i + wm / bm) * bm : Nat) : Int) ∧
      (∀ j t, windowScore prices j (wm / bm) = some t →
        better mode t w.avg = false) ∧
      (∀ j t, j < i → windowScore prices j (wm / bm) = some t → t ≠ w.avg) := by
  rw [rollingWindowExtreme] at hres
  rcases hfold : (candidates prices (wm / bm)).foldl (pickBest mode) none
    with _ | ⟨i, s⟩
  · rw [hfold] at hres
    exact absurd hres (by simp)
  rw [hfold] at hres
  simp only [Option.map_some', Option.some.injEq] at hres
  obtain rfl := hres.symm
  obtain ⟨hmem, hopt, hearly⟩ := foldl_pickBest_none_spec mode _ _
    (candidates_pairwise prices _) hfold
  refine ⟨i, (mem_candidates hlen).1 hmem, rfl, rfl, ?_, ?_⟩
  · intro j t hjt
    exact hopt (j, t) ((mem_candidates hlen).2 hjt)
  · intro j t hji hjt hst
    have hb := hearly (j, t) ((mem_candidates hlen).2 hjt) hji
    rw [hst] at hb
    exact absurd hb (by simp [better_irrefl])

/-- Witness for C3: the grid [1, 1] with a one-bucket window has two
eligible candidates tied at score 1; the scan returns index 0, the
earlier one. -/
theorem rolling_window_tie_break_witness :
    ∃ i, windowScore [some (1 : ℚ), some 1] i (15 / 15)
        = some (⟨(0 : Int), 15, 1⟩ : WindowResult).avg ∧
      (⟨(0 : Int), 15, 1⟩ : WindowResult).start = 0 + ((i * 15 : Nat) : Int) ∧
      (⟨(0 : Int), 15, 1⟩ : WindowResult).stop
        = 0 + (((i + 15 / 15) * 15 : Nat) : Int) ∧
      (∀ j t, windowScore [some (1 : ℚ), some 1] j (15 / 15) = some t →
        better .minMode t (⟨(0 : Int), 15, 1⟩ : WindowResult).avg = false) ∧
      (∀ j t, j < i → windowScore [some (1 : ℚ), some 1] j (15 / 15) = some t →
        t ≠ (⟨(0 : Int), 15, 1⟩ : WindowResult).avg) := by
  refine rolling_window_tie_break [some 1, some 1] 0 15 15 .minMode
    ⟨0, 15, 1⟩ (by decide) ?_
  have hs0 : windowScore [some (1 : ℚ), some 1] 0 1 = some 1 := by
    norm_num [windowScore, windowBuckets, List.filterMap_cons]
  have hs1 : windowScore [some (1 : ℚ), some 1] 1 1 = some 1 := by
    norm_num [windowScore, windowBuckets, List.filterMap_cons]
  have hc : candidates [some (1 : ℚ), some 1] 1 = [(0, 1), (1, 1)] := by
    norm_num [candidates, List.range_succ, List.filterMap_cons, hs0, hs1]
  have hfold : (candidates [some (1 : ℚ), some 1] 1).foldl
      (pickBest Mode.minMode) none = some (0, 1) := by
    norm_num [hc, pickBest, better]
  norm_num [rollingWindowExtreme, hfold]

/-- Modelled from the spec: the overlap duration, in minutes, of a slot
with the day window `[dayStart, dayStart + 24h)` (spec section 4.4);
`statistics.py` with `daily_stats` is absent from src. -/
def overlapMinutes (s : TariffSlot) (dayStart : Time) : Int :=
  max 0 (min s.stop (dayStart + 1440) - max s.start dayStart)

/-- Modelled from the spec: a slot intersects the day window when the
half-open intervals overlap (spec section 4.4). -/
def intersectsDay (s : TariffSlot) (dayStart : Time) : Bool :=
  decide (s.start < dayStart + 1440) && decide (dayStart < s.stop)

/-- DailyStats (spec section 3), restricted to the fields the claims
use: the duration-weighted average, the intersecting-slot count and the
covered minutes.  Min/max/median/quartiles are not needed by any claim. -/
structure DailyStats where
  avg : Option Price
  slots_count : Nat
  covered_minutes : Int
deriving DecidableEq, Repr

/-- Modelled from the spec: `daily_stats(slots, day)` (spec section 4.4);
`statistics.py` is absent from src.  The average is the overlap-duration
weighted mean of the prices of the slots intersecting the day window;
with no intersecting slot the average is absent, the count 0 and the
coverage 0. -/
def dailyStats (slots : List TariffSlot) (dayStart : Time) : DailyStats :=
  let xs := slots.filter (fun s => intersectsDay s dayStart)
  let wsum := (xs.map (fun s => s.price * ((overlapMinutes s dayStart : Int) : ℚ))).sum
  let dsum := (xs.map (fun s => overlapMinutes s dayStart)).sum
  ⟨if xs.isEmpty then none else some (wsum / ((dsum : Int) : ℚ)),
   xs.length, dsum⟩

/-- C4: the avg field of daily_stats is the overlap-duration weighted
mean sum(price_i * duration_i) / sum(duration_i) over the slots
intersecting the day window, where duration_i is the overlap with the
day (not the full slot duration); the spec example [00:00-06:00, 0.10]
and [06:00-24:00, 0.30] gives avg 0.25 with slots_count 2 and
covered_minutes 1440. -/
theorem daily_stats_weighted_avg (slots : List TariffSlot) (dayStart : Time)
    (h : slots.filter (fun s => intersectsDay s dayStart) ≠ []) :
    (dailyStats slots dayStart).avg
      = some ((((slots.filter (fun s => intersectsDay s dayStart)).map
            (fun s => s.price * ((overlapMinutes s dayStart : Int) : ℚ))).sum)
          / ((((slots.filter (fun s => intersectsDay s dayStart)).map
            (fun s => overlapMinutes s dayStart)).sum : Int) : ℚ)) ∧
    (dailyStats slots dayStart).slots_count
      = (slots.filter (fun s => intersectsDay s dayStart)).length ∧
    (dailyStats slots dayStart).covered_minutes
      = ((slots.filter (fun s => intersectsDay s dayStart)).map
          (fun s => overlapMinutes s dayStart)).sum ∧
    overlapMinutes ⟨-60, 360, 1⟩ 0 = 360 ∧
    dailyStats [⟨0, 360, 1/10⟩, ⟨360, 1440, 3/10⟩] 0
      = ⟨some (1/4), 2, 1440⟩ := by
  refine ⟨?_, rfl, rfl, by norm_num [overlapMinutes], ?_⟩
  · rw [dailyStats]
    simp only [List.isEmpty_iff]
    rw [if_neg h]
  · have hfil : List.filter (fun s => intersectsDay s 0)
        [(⟨0, 360, 1/10⟩ : TariffSlot), ⟨360, 1440, 3/10⟩]
        = [⟨0, 360, 1/10⟩, ⟨360, 1440, 3/10⟩] := by
      norm_num [List.filter, intersectsDay]
    rw [dailyStats]
    simp only [hfil]
    norm_num [overlapMinutes, DailyStats.mk.injEq]

/-- Witness for C4: the spec example evaluated through the theorem. -/
theorem daily_stats_weighted_avg_witness :
    dailyStats [(⟨0, 360, 1/10⟩ : TariffSlot), ⟨360, 1440, 3/10⟩] 0
      = ⟨some (1/4), 2, 1440⟩ :=
  (daily_stats_weighted_avg [⟨0, 360, 1/10⟩, ⟨360, 1440, 3/10⟩] 0
    (by
      intro hc
      norm_num [List.filter, intersectsDay] at hc
      exact List.cons_ne_nil _ _ hc)).2.2.2.2

end EkzTariffs
